import Mathlib

/-!
Shallow embedding of the shallowNNUE move-classification and feature-vector
core (src/bit_move.rs and src/shallow_nnue.rs), together with the external
chess-crate data the core manipulates (squares, pieces, colors, boards,
moves, and the coordinate-notation rendering of a move).

Machine integers of the source (u16, i16) stay well inside their ranges
(feature indices are at most 767), so they are modelled as Nat.
The tch tensor holds only the exact values 0.0 and 1.0 written by fill_,
so it is modelled as a function from Fin 768 to Nat taking values 0 and 1.
Rust panics (the .expect calls on empty squares) are modelled as a
distinguished inconsistentBoard error; the Err(()) return of BitMove::new
is the illegalMove error.
-/

/-- Side color, as in the chess crate: White or Black. -/
inductive Color where
  | white
  | black
deriving DecidableEq

/-- Piece kind, in the chess crate's discriminant order
Pawn = 0, Knight = 1, Bishop = 2, Rook = 3, Queen = 4, King = 5. -/
inductive Piece where
  | pawn
  | knight
  | bishop
  | rook
  | queen
  | king
deriving DecidableEq

/-- The discriminant of a piece (the value of `piece as u16` in Rust). -/
def pieceOrd : Piece → Nat
  | .pawn => 0
  | .knight => 1
  | .bishop => 2
  | .rook => 3
  | .queen => 4
  | .king => 5

/-- orient from bit_move.rs: identity for White, point reflection 63 - sq
for Black.  Squares are 0..63 with A1 = 0, H8 = 63 (chess crate). -/
def orient (sq : Fin 64) (colour : Color) : Nat :=
  match colour with
  | .white => sq.val
  | .black => 63 - sq.val

/-- piece_index from bit_move.rs: the piece discriminant, offset by 6 for
an enemy piece. -/
def piece_index (piece : Piece) (own_piece : Bool) : Nat :=
  if own_piece then pieceOrd piece else pieceOrd piece + 6

/-- get_index from bit_move.rs: feature index of (piece, ownership,
reoriented square). -/
def get_index (piece : Piece) (own_piece : Bool) (sq_reoriented : Nat) : Nat :=
  piece_index piece own_piece * 64 + sq_reoriented

/-- PieceValueChange from bit_move.rs. -/
inductive PieceValueChange where
  | Place
  | Remove
deriving DecidableEq

/-- PieceMove from bit_move.rs: one feature delta. -/
structure PieceMove where
  index : Nat
  value : PieceValueChange
deriving DecidableEq

/-- MoveType from bit_move.rs, with its fixed-size delta arrays. -/
inductive MoveType where
  | NonCapture : PieceMove → PieceMove → MoveType
  | Promote : PieceMove → PieceMove → MoveType
  | Capture : PieceMove → PieceMove → PieceMove → MoveType
  | Castle : PieceMove → PieceMove → PieceMove → PieceMove → MoveType
deriving DecidableEq

/-- The deltas of a classification, in the order the source arrays list
them (the order every make_move / unmake_move loop iterates in). -/
def MoveType.deltas : MoveType → List PieceMove
  | .NonCapture a b => [a, b]
  | .Promote a b => [a, b]
  | .Capture a b c => [a, b, c]
  | .Castle a b c d => [a, b, c, d]

/-- BitMove from bit_move.rs. -/
structure BitMove where
  mve : MoveType
deriving DecidableEq

/-- ChessMove of the chess crate: source and destination squares plus an
optional promotion piece. -/
structure ChessMove where
  source : Fin 64
  dest : Fin 64
  promotion : Option Piece
deriving DecidableEq

/-- Board of the chess crate, as the core observes it: per-square
occupancy (piece and color) and the side to move. -/
structure Board where
  occ : Fin 64 → Option (Piece × Color)
  turn : Color

/-- piece_on of the chess crate Board. -/
def piece_on (b : Board) (sq : Fin 64) : Option Piece :=
  (b.occ sq).map Prod.fst

/-- color_on of the chess crate Board. -/
def color_on (b : Board) (sq : Fin 64) : Option Color :=
  (b.occ sq).map Prod.snd

/-- File letter of a square (chess crate square rendering, column a..h). -/
def fileChar (n : Nat) : Char :=
  match n with
  | 0 => 'a'
  | 1 => 'b'
  | 2 => 'c'
  | 3 => 'd'
  | 4 => 'e'
  | 5 => 'f'
  | 6 => 'g'
  | _ => 'h'

/-- Rank digit of a square (chess crate square rendering, row 1..8). -/
def rankChar (n : Nat) : Char :=
  match n with
  | 0 => '1'
  | 1 => '2'
  | 2 => '3'
  | 3 => '4'
  | 4 => '5'
  | 5 => '6'
  | 6 => '7'
  | _ => '8'

/-- Rendering of a square as the chess crate Display does: file letter
then rank digit. -/
def squareText (sq : Fin 64) : List Char :=
  [fileChar (sq.val % 8), rankChar (sq.val / 8)]

/-- Lowercase letter of a promotion piece in the chess crate rendering. -/
def pieceChar : Piece → Char
  | .pawn => 'p'
  | .knight => 'n'
  | .bishop => 'b'
  | .rook => 'r'
  | .queen => 'q'
  | .king => 'k'

/-- The chess crate's ChessMove Display (what chess_move.to_string()
yields): coordinate notation, source square then destination square then
the optional promotion piece letter, e.g. e2e4 or e7e8q.  It never
renders castling as O-O. -/
def moveText (m : ChessMove) : List Char :=
  squareText m.source ++ squareText m.dest ++
    (match m.promotion with
     | none => []
     | some p => [pieceChar p])

/-- Failure modes of classification: Err(()) of BitMove::new is
illegalMove; a panic of one of its .expect calls on an empty square is
inconsistentBoard. -/
inductive ClassifyError where
  | illegalMove
  | inconsistentBoard
deriving DecidableEq

def sqA1 : Fin 64 := ⟨0, by omega⟩
def sqC1 : Fin 64 := ⟨2, by omega⟩
def sqD1 : Fin 64 := ⟨3, by omega⟩
def sqE1 : Fin 64 := ⟨4, by omega⟩
def sqF1 : Fin 64 := ⟨5, by omega⟩
def sqG1 : Fin 64 := ⟨6, by omega⟩
def sqH1 : Fin 64 := ⟨7, by omega⟩

/-- BitMove::new from bit_move.rs: classify a move against the pre-move
board and the side to move.  Control flow mirrors the source: castle
check on the rendered move string first, then promotion, then the
color of the destination square. -/
def bitMoveNew (chess_move : ChessMove) (turn : Color) (pre_move_board : Board) :
    Except ClassifyError BitMove :=
  if moveText chess_move = ['O', '-', 'O'] then
    .ok ⟨.Castle
      ⟨get_index .king true (orient sqG1 .white), .Place⟩
      ⟨get_index .king true (orient sqE1 .white), .Remove⟩
      ⟨get_index .rook true (orient sqF1 .white), .Place⟩
      ⟨get_index .rook true (orient sqH1 .white), .Remove⟩⟩
  else if moveText chess_move = ['O', '-', 'O', '-', 'O'] then
    .ok ⟨.Castle
      ⟨get_index .king true (orient sqC1 .white), .Place⟩
      ⟨get_index .king true (orient sqE1 .white), .Remove⟩
      ⟨get_index .rook true (orient sqD1 .white), .Place⟩
      ⟨get_index .rook true (orient sqA1 .white), .Remove⟩⟩
  else
    match chess_move.promotion with
    | some promotion_piece =>
      match piece_on pre_move_board chess_move.source with
      | some source_piece =>
        .ok ⟨.Promote
          ⟨get_index promotion_piece true (orient chess_move.dest turn), .Place⟩
          ⟨get_index source_piece true (orient chess_move.source turn), .Remove⟩⟩
      | none => .error .inconsistentBoard
    | none =>
      match color_on pre_move_board chess_move.dest with
      | some color =>
        if color ≠ turn then
          match piece_on pre_move_board chess_move.dest,
                piece_on pre_move_board chess_move.source with
          | some dest_piece, some source_piece =>
            .ok ⟨.Capture
              ⟨get_index dest_piece false (orient chess_move.dest turn), .Remove⟩
              ⟨get_index source_piece true (orient chess_move.dest turn), .Place⟩
              ⟨get_index source_piece true (orient chess_move.source turn), .Remove⟩⟩
          | _, _ => .error .inconsistentBoard
        else
          .error .illegalMove
      | none =>
        match piece_on pre_move_board chess_move.source with
        | some source_piece =>
          .ok ⟨.NonCapture
            ⟨get_index source_piece true (orient chess_move.dest turn), .Place⟩
            ⟨get_index source_piece true (orient chess_move.source turn), .Remove⟩⟩
        | none => .error .inconsistentBoard

/-- The 768-entry feature vector (encoding_tensor). -/
abbrev EncVec := Fin 768 → Nat

/-- Value written by make_move for a delta: Place writes 1.0, Remove
writes 0.0. -/
def applyVal : PieceValueChange → Nat
  | .Place => 1
  | .Remove => 0

/-- Value written by unmake_move for a delta: Place writes 0.0, Remove
writes 1.0. -/
def revertVal : PieceValueChange → Nat
  | .Place => 0
  | .Remove => 1

/-- One fill_ write of a delta's value (through a value map) at the
delta's index. -/
def writeDelta (f : PieceValueChange → Nat) (v : EncVec) (pm : PieceMove) : EncVec :=
  fun i => if i.val = pm.index then f pm.value else v i

/-- make_move from shallow_nnue.rs: every MoveType arm loops its delta
array in order, setting each delta's index to 1 for Place and 0 for
Remove. -/
def make_move (v : EncVec) (bitmove : BitMove) : EncVec :=
  bitmove.mve.deltas.foldl (writeDelta applyVal) v

/-- unmake_move from shallow_nnue.rs: same loops with the inverse value
map, 0 for Place and 1 for Remove. -/
def unmake_move (v : EncVec) (bitmove : BitMove) : EncVec :=
  bitmove.mve.deltas.foldl (writeDelta revertVal) v

/-- The mutable state of ShallowNNUE that the core touches: the stored
board and the encoding tensor (the loaded model is the external oracle). -/
structure NNUEState where
  board : Board
  enc : EncVec

/-- One iteration of the set_board_hard loop: if the square is occupied,
set the feature index of (piece, ownership relative to the perspective,
square reoriented to the perspective) to 1. -/
def encStep (occ : Fin 64 → Option (Piece × Color)) (persp : Color)
    (v : EncVec) (sq : Fin 64) : EncVec :=
  match occ sq with
  | some pc =>
    fun i => if i.val = get_index pc.1 (decide (pc.2 = persp)) (orient sq persp) then 1 else v i
  | none => v

/-- The vector set_board_hard builds: clear to zero, then run the loop
over ALL_SQUARES (squares 0..63 in order).  The perspective parameter is
the board's side to move in the source (used there for both ownership
and orientation). -/
def encodeFrom (occ : Fin 64 → Option (Piece × Color)) (persp : Color) : EncVec :=
  (List.finRange 64).foldl (encStep occ persp) (fun _ => 0)

/-- The full resynchronization vector of a board, relative to its own
side to move, as set_board_hard computes it. -/
def encodeBoard (b : Board) : EncVec :=
  encodeFrom b.occ b.turn

/-- set_board_hard from shallow_nnue.rs: store the supplied board, clear
the encoding tensor, re-encode every occupied square, and return Ok(()). -/
def set_board_hard (_s : NNUEState) (board : Board) : Except Unit NNUEState :=
  .ok ⟨board, encodeBoard board⟩

/-- forward from shallow_nnue.rs, with the loaded model abstracted as an
oracle on the vector: classify against the stored board and its side to
move; on error return early leaving the state untouched; otherwise apply
the move, query the oracle, revert the move, and return the score. -/
def forward (oracle : EncVec → Int) (s : NNUEState) (chess_move : ChessMove) :
    NNUEState × Except ClassifyError Int :=
  match bitMoveNew chess_move s.board.turn s.board with
  | .error e => (s, .error e)
  | .ok bitmove =>
    let v1 := make_move s.enc bitmove
    let result := oracle v1
    (⟨s.board, unmake_move v1 bitmove⟩, .ok result)

/-- The last delta of a list that targets a given index, if any (the one
whose write survives a left fold of direct sets). -/
def lastMatch (i : Nat) : List PieceMove → Option PieceMove
  | [] => none
  | pm :: rest =>
    match lastMatch i rest with
    | some q => some q
    | none => if i = pm.index then some pm else none

/-- Whether a square's occupancy places a 1 at feature index i under the
given perspective. -/
def hitB (occ : Fin 64 → Option (Piece × Color)) (persp : Color)
    (i : Fin 768) (sq : Fin 64) : Bool :=
  match occ sq with
  | some pc => decide (i.val = get_index pc.1 (decide (pc.2 = persp)) (orient sq persp))
  | none => false

/-- Ownership-offset swap on a feature block index: own blocks 0..5 and
enemy blocks 6..11 exchange. -/
def flipOwn (k : Nat) : Nat :=
  if k < 6 then k + 6 else k - 6

/-- Perspective transform on feature indices: swap the ownership offset
of the 64-wide block and point-reflect the square part. -/
def flipIdx (i : Fin 768) : Fin 768 :=
  ⟨flipOwn (i.val / 64) * 64 + (63 - i.val % 64), by
    have h := i.isLt
    unfold flipOwn
    split <;> omega⟩

/-- Back-rank piece at a file (standard chess starting setup). -/
def backRank (n : Nat) : Piece :=
  match n with
  | 0 => .rook
  | 1 => .knight
  | 2 => .bishop
  | 3 => .queen
  | 4 => .king
  | 5 => .bishop
  | 6 => .knight
  | _ => .rook

/-- The standard initial position (Board::default of the chess crate),
White to move. -/
def initialBoard : Board where
  occ := fun sq =>
    match sq.val / 8 with
    | 0 => some (backRank (sq.val % 8), .white)
    | 1 => some (.pawn, .white)
    | 6 => some (.pawn, .black)
    | 7 => some (backRank (sq.val % 8), .black)
    | _ => none
  turn := .white

/-- The move e2e4 (square 12 to square 28, no promotion). -/
def mvE2E4 : ChessMove := ⟨⟨12, by omega⟩, ⟨28, by omega⟩, none⟩

/-- The classification of e2e4 from the initial position: place own pawn
at 28, remove own pawn at 12. -/
def bmE2E4 : BitMove := ⟨.NonCapture ⟨28, .Place⟩ ⟨12, .Remove⟩⟩

/-- The position after 1. e2e4: the initial occupancy with the e2 pawn
moved to e4, Black to move. -/
def boardAfterE4 : Board where
  occ := fun sq =>
    if sq.val = 12 then none
    else if sq.val = 28 then some (.pawn, .white)
    else initialBoard.occ sq
  turn := .black

/-- A concrete vector holding 1 at index 12 and 0 elsewhere (the pawn
deltas of e2e4 are valid against it). -/
def wVec : EncVec := fun i => if i.val = 12 then 1 else 0

/-- A constant scoring oracle for witnesses. -/
def oracle0 : EncVec → Int := fun _ => 0

/-- Board with a white pawn on a7 (48) and a black rook on b8 (57):
promotion-with-capture setting. -/
def promBoard : Board where
  occ := fun sq =>
    if sq.val = 48 then some (.pawn, .white)
    else if sq.val = 57 then some (.rook, .black)
    else none
  turn := .white

/-- The promotion-with-capture move a7b8q. -/
def promMove : ChessMove := ⟨⟨48, by omega⟩, ⟨57, by omega⟩, some .queen⟩

/-- Board with a white pawn on a7 (48) and a white knight on b8 (57):
a promotion move onto a square held by the mover's own piece. -/
def promCexBoard : Board where
  occ := fun sq =>
    if sq.val = 48 then some (.pawn, .white)
    else if sq.val = 57 then some (.knight, .white)
    else none
  turn := .white

/-- The promotion move a7b8q onto the mover's own knight. -/
def promCexMove : ChessMove := ⟨⟨48, by omega⟩, ⟨57, by omega⟩, some .queen⟩

/-- Board with a white rook on a1 (0) and a black rook on a8 (56). -/
def capBoard : Board where
  occ := fun sq =>
    if sq.val = 0 then some (.rook, .white)
    else if sq.val = 56 then some (.rook, .black)
    else none
  turn := .white

/-- The capture move a1a8. -/
def capMove : ChessMove := ⟨⟨0, by omega⟩, ⟨56, by omega⟩, none⟩

/-- Board with a white rook on a1 (0) and a white pawn on a2 (8). -/
def ownBlockBoard : Board where
  occ := fun sq =>
    if sq.val = 0 then some (.rook, .white)
    else if sq.val = 8 then some (.pawn, .white)
    else none
  turn := .white

/-- The move a1a2 onto the mover's own pawn. -/
def ownBlockMove : ChessMove := ⟨⟨0, by omega⟩, ⟨8, by omega⟩, none⟩

/-- NNUE state holding ownBlockBoard and the concrete vector wVec. -/
def ownBlockState : NNUEState := ⟨ownBlockBoard, wVec⟩

/-- A castling-ready board: white king on e1 (4), white rook on h1 (7),
black king on e8 (60), White to move. -/
def castleBoard : Board where
  occ := fun sq =>
    if sq.val = 4 then some (.king, .white)
    else if sq.val = 7 then some (.rook, .white)
    else if sq.val = 60 then some (.king, .black)
    else none
  turn := .white

/-- The kingside castling move in coordinate form: e1 to g1. -/
def castleMove : ChessMove := ⟨⟨4, by omega⟩, ⟨6, by omega⟩, none⟩

/-! ## Helper lemmas -/

set_option maxRecDepth 10000

theorem foldl_writeDelta (f : PieceValueChange → Nat) (ds : List PieceMove)
    (v : EncVec) (i : Fin 768) :
    ds.foldl (writeDelta f) v i =
      match lastMatch i.val ds with
      | some pm => f pm.value
      | none => v i := by
  induction ds generalizing v with
  | nil => rfl
  | cons pm rest ih =>
    show rest.foldl (writeDelta f) (writeDelta f v pm) i = _
    rw [ih]
    cases h : lastMatch i.val rest with
    | some q => simp [lastMatch, h]
    | none =>
      simp only [lastMatch, h, writeDelta]
      split <;> simp_all

theorem lastMatch_mem {i : Nat} {ds : List PieceMove} {pm : PieceMove}
    (h : lastMatch i ds = some pm) : pm ∈ ds ∧ i = pm.index := by
  induction ds with
  | nil => simp [lastMatch] at h
  | cons q rest ih =>
    simp only [lastMatch] at h
    cases hr : lastMatch i rest with
    | some q' =>
      rw [hr] at h
      simp only [Option.some.injEq] at h
      subst h
      obtain ⟨hm, hi⟩ := ih hr
      exact ⟨List.mem_cons_of_mem _ hm, hi⟩
    | none =>
      rw [hr] at h
      simp only at h
      by_cases hc : i = q.index
      · rw [if_pos hc] at h
        simp only [Option.some.injEq] at h
        subst h
        exact ⟨List.mem_cons_self _ _, hc⟩
      · rw [if_neg hc] at h
        exact absurd h (by simp)

theorem lastMatch_none {i : Nat} {ds : List PieceMove}
    (h : ∀ pm ∈ ds, pm.index ≠ i) : lastMatch i ds = none := by
  induction ds with
  | nil => rfl
  | cons q rest ih =>
    simp only [lastMatch]
    rw [ih (fun pm hpm => h pm (List.mem_cons_of_mem _ hpm))]
    simp only
    exact if_neg (Ne.symm (h q (List.mem_cons_self _ _)))

/-- C2: for every feature vector V and every classification C whose
Place-indices hold 0 in V and whose Remove-indices hold 1 in V (i.e. C
was produced against the board state V was derived from), reverting C
after applying C (unmake_move after make_move) restores V exactly at all
768 entries. -/
theorem claim_C2_roundtrip (v : EncVec) (bm : BitMove)
    (hP : ∀ pm ∈ bm.mve.deltas, pm.value = PieceValueChange.Place →
      ∀ i : Fin 768, i.val = pm.index → v i = 0)
    (hR : ∀ pm ∈ bm.mve.deltas, pm.value = PieceValueChange.Remove →
      ∀ i : Fin 768, i.val = pm.index → v i = 1) :
    unmake_move (make_move v bm) bm = v := by
  funext i
  rw [unmake_move, foldl_writeDelta]
  cases h : lastMatch i.val bm.mve.deltas with
  | some pm =>
    obtain ⟨hmem, hidx⟩ := lastMatch_mem h
    simp only
    cases hv : pm.value with
    | Place => exact (hP pm hmem hv i hidx).symm
    | Remove => exact (hR pm hmem hv i hidx).symm
  | none =>
    simp only
    rw [make_move, foldl_writeDelta, h]

theorem claim_C2_roundtrip_witness :
    (∀ pm ∈ bmE2E4.mve.deltas, pm.value = PieceValueChange.Place →
      ∀ i : Fin 768, i.val = pm.index → wVec i = 0) ∧
    (∀ pm ∈ bmE2E4.mve.deltas, pm.value = PieceValueChange.Remove →
      ∀ i : Fin 768, i.val = pm.index → wVec i = 1) ∧
    unmake_move (make_move wVec bmE2E4) bmE2E4 = wVec := by
  refine ⟨by decide, by decide, ?_⟩
  exact claim_C2_roundtrip wVec bmE2E4 (by decide) (by decide)

/-- C9: make_move and unmake_move write only the feature indices listed
in the classification's deltas; every entry of the vector whose index is
not among them has the same value after the call as before. -/
theorem claim_C9_frame (v : EncVec) (bm : BitMove) (i : Fin 768)
    (h : ∀ pm ∈ bm.mve.deltas, pm.index ≠ i.val) :
    make_move v bm i = v i ∧ unmake_move v bm i = v i := by
  constructor
  · rw [make_move, foldl_writeDelta, lastMatch_none h]
  · rw [unmake_move, foldl_writeDelta, lastMatch_none h]

theorem claim_C9_frame_witness :
    (∀ pm ∈ bmE2E4.mve.deltas, pm.index ≠ (0 : Fin 768).val) ∧
    (make_move wVec bmE2E4 0 = wVec 0 ∧ unmake_move wVec bmE2E4 0 = wVec 0) :=
  ⟨by decide, claim_C9_frame wVec bmE2E4 0 (by decide)⟩

theorem foldl_encStep (occ : Fin 64 → Option (Piece × Color)) (persp : Color)
    (l : List (Fin 64)) (v : EncVec) (i : Fin 768) :
    (l.foldl (encStep occ persp) v) i =
      if l.any (hitB occ persp i) then 1 else v i := by
  induction l generalizing v with
  | nil => simp
  | cons sq rest ih =>
    show (rest.foldl (encStep occ persp) (encStep occ persp v sq)) i = _
    rw [ih]
    cases hr : rest.any (hitB occ persp i) with
    | true => simp [hr]
    | false =>
      simp only [List.any_cons, hr, Bool.or_false]
      unfold encStep hitB
      cases ho : occ sq with
      | none => simp
      | some pc => simp only; split <;> simp_all

theorem encodeFrom_apply (occ : Fin 64 → Option (Piece × Color)) (persp : Color)
    (i : Fin 768) :
    encodeFrom occ persp i =
      if ∃ sq : Fin 64, hitB occ persp i sq = true then 1 else 0 := by
  rw [encodeFrom, foldl_encStep]
  have h : ((List.finRange 64).any (hitB occ persp i) = true) ↔
      (∃ sq : Fin 64, hitB occ persp i sq = true) := by
    simp [List.any_eq_true, List.mem_finRange]
  exact if_congr h rfl rfl

theorem hitB_iff (occ : Fin 64 → Option (Piece × Color)) (persp : Color)
    (i : Fin 768) (sq : Fin 64) :
    hitB occ persp i sq = true ↔
      ∃ p c, occ sq = some (p, c) ∧
        i.val = get_index p (decide (c = persp)) (orient sq persp) := by
  unfold hitB
  cases ho : occ sq with
  | none => simp
  | some pc =>
    obtain ⟨p, c⟩ := pc
    simp only [decide_eq_true_eq, Option.some.injEq, Prod.mk.injEq]
    constructor
    · intro hi
      exact ⟨p, c, ⟨rfl, rfl⟩, hi⟩
    · rintro ⟨p', c', ⟨hp, hc⟩, hi⟩
      subst hp
      subst hc
      exact hi

/-- C10: set_board_hard returns Ok for every supplied board despite its
Result return type, stores the supplied board, and rebuilds the vector
fully from that board's contents: an entry is 1 exactly when some
occupied square encodes to its index (ownership and orientation relative
to the board's side to move), and every entry is 0 or 1. -/
theorem claim_C10_set_board_hard (s : NNUEState) (b : Board) :
    set_board_hard s b = .ok ⟨b, encodeBoard b⟩ ∧
    ∀ i : Fin 768,
      (encodeBoard b i = 1 ↔
        ∃ sq : Fin 64, ∃ p c, b.occ sq = some (p, c) ∧
          i.val = get_index p (decide (c = b.turn)) (orient sq b.turn)) ∧
      (encodeBoard b i = 0 ∨ encodeBoard b i = 1) := by
  refine ⟨rfl, fun i => ?_⟩
  rw [encodeBoard, encodeFrom_apply]
  by_cases h : ∃ sq : Fin 64, hitB b.occ b.turn i sq = true
  · rw [if_pos h]
    refine ⟨⟨fun _ => ?_, fun _ => rfl⟩, Or.inr rfl⟩
    obtain ⟨sq, hsq⟩ := h
    exact ⟨sq, (hitB_iff b.occ b.turn i sq).mp hsq⟩
  · rw [if_neg h]
    refine ⟨⟨fun h01 => absurd h01 (by omega), fun hex => ?_⟩, Or.inl rfl⟩
    obtain ⟨sq, hsq⟩ := hex
    exact absurd ⟨sq, (hitB_iff b.occ b.turn i sq).mpr hsq⟩ h

theorem pieceOrd_le (p : Piece) : pieceOrd p ≤ 5 := by
  cases p <;> decide

theorem pieceOrd_inj {p₁ p₂ : Piece} (h : pieceOrd p₁ = pieceOrd p₂) : p₁ = p₂ := by
  cases p₁ <;> cases p₂ <;> revert h <;> decide

theorem piece_index_le (p : Piece) (o : Bool) : piece_index p o ≤ 11 := by
  have := pieceOrd_le p
  cases o <;> simp [piece_index] <;> omega

theorem piece_index_inj {p₁ p₂ : Piece} {o₁ o₂ : Bool}
    (h : piece_index p₁ o₁ = piece_index p₂ o₂) : p₁ = p₂ ∧ o₁ = o₂ := by
  have l₁ := pieceOrd_le p₁
  have l₂ := pieceOrd_le p₂
  cases o₁ with
  | true =>
    cases o₂ with
    | true => exact ⟨pieceOrd_inj (by simpa [piece_index] using h), rfl⟩
    | false =>
      exact absurd h (by simp [piece_index]; omega)
  | false =>
    cases o₂ with
    | true =>
      exact absurd h (by simp [piece_index]; omega)
    | false =>
      refine ⟨pieceOrd_inj ?_, rfl⟩
      simp [piece_index] at h
      omega

/-- C7: orient returns the square unchanged for the viewing
(white-equivalent) color and 63 minus the square index for the other
color, for every square 0..63. -/
theorem claim_C7_orient (sq : Fin 64) :
    orient sq Color.white = sq.val ∧ orient sq Color.black = 63 - sq.val :=
  ⟨rfl, rfl⟩

/-- C8: the feature index equals pieceIndex(piece, isOwn) * 64 plus the
reoriented square, lies strictly below 768, and distinct
(piece, ownership, square) triples never collide. -/
theorem claim_C8_feature_index (p₁ p₂ : Piece) (o₁ o₂ : Bool) (r₁ r₂ : Fin 64) :
    get_index p₁ o₁ r₁.val = piece_index p₁ o₁ * 64 + r₁.val ∧
    get_index p₁ o₁ r₁.val < 768 ∧
    (get_index p₁ o₁ r₁.val = get_index p₂ o₂ r₂.val →
      p₁ = p₂ ∧ o₁ = o₂ ∧ r₁ = r₂) := by
  have h₁ := piece_index_le p₁ o₁
  have h₂ := piece_index_le p₂ o₂
  have hr₁ := r₁.isLt
  have hr₂ := r₂.isLt
  refine ⟨rfl, ?_, fun h => ?_⟩
  · unfold get_index
    omega
  · unfold get_index at h
    have hpi : piece_index p₁ o₁ = piece_index p₂ o₂ := by omega
    have hrv : r₁.val = r₂.val := by omega
    obtain ⟨hp, ho⟩ := piece_index_inj hpi
    exact ⟨hp, ho, Fin.ext hrv⟩

theorem claim_C8_feature_index_witness :
    get_index Piece.pawn true (12 : Fin 64).val =
      piece_index Piece.pawn true * 64 + (12 : Fin 64).val ∧
    get_index Piece.pawn true (12 : Fin 64).val < 768 ∧
    (get_index Piece.pawn true (12 : Fin 64).val =
        get_index Piece.pawn true (12 : Fin 64).val →
      Piece.pawn = Piece.pawn ∧ true = true ∧ (12 : Fin 64) = 12) :=
  claim_C8_feature_index Piece.pawn Piece.pawn true true 12 12

theorem rankChar_ne_dash (n : Nat) : rankChar n ≠ '-' := by
  unfold rankChar
  split <;> decide

theorem moveText_ne_OO (m : ChessMove) : moveText m ≠ ['O', '-', 'O'] := by
  intro h
  have hd : rankChar (m.source.val / 8) = '-' := by
    simpa [moveText, squareText] using congrArg (fun l => l.tail.head?) h
  exact rankChar_ne_dash _ hd

theorem moveText_ne_OOO (m : ChessMove) :
    moveText m ≠ ['O', '-', 'O', '-', 'O'] := by
  intro h
  have hd : rankChar (m.source.val / 8) = '-' := by
    simpa [moveText, squareText] using congrArg (fun l => l.tail.head?) h
  exact rankChar_ne_dash _ hd

/-- C4: a move carrying a promotion piece is classified as Promote with
exactly two deltas, place the promoted piece at the destination (own
perspective) and remove the piece standing on the source square, the
moving pawn, (own perspective); the board's destination square is never
consulted, so no capture-removal delta is emitted even in
promotion-with-capture. -/
theorem claim_C4_promote (m : ChessMove) (turn : Color) (b : Board)
    (pp sp : Piece) (sc : Color)
    (h1 : m.promotion = some pp)
    (h2 : b.occ m.source = some (sp, sc)) :
    bitMoveNew m turn b = .ok ⟨.Promote
      ⟨get_index pp true (orient m.dest turn), .Place⟩
      ⟨get_index sp true (orient m.source turn), .Remove⟩⟩ := by
  unfold bitMoveNew
  rw [if_neg (moveText_ne_OO m), if_neg (moveText_ne_OOO m)]
  simp [h1, piece_on, h2]

theorem claim_C4_promote_witness :
    (promMove.promotion = some Piece.queen) ∧
    (promBoard.occ promMove.source = some (Piece.pawn, Color.white)) ∧
    (promBoard.occ promMove.dest = some (Piece.rook, Color.black)) ∧
    bitMoveNew promMove Color.white promBoard = .ok ⟨.Promote
      ⟨get_index Piece.queen true (orient promMove.dest Color.white), .Place⟩
      ⟨get_index Piece.pawn true (orient promMove.source Color.white), .Remove⟩⟩ :=
  ⟨rfl, rfl, rfl,
    claim_C4_promote promMove Color.white promBoard Piece.queen Piece.pawn
      Color.white rfl rfl⟩

/-- C6: a non-promotion move (and no move ever passes the castle check)
whose destination holds a piece of a color different from the mover is
classified as Capture with exactly three deltas in order: remove the
captured piece (enemy perspective at the destination), place the moving
piece (own perspective at the destination), remove the moving piece (own
perspective at the source). -/
theorem claim_C6_capture (m : ChessMove) (turn : Color) (b : Board)
    (dp sp : Piece) (dc sc : Color)
    (h1 : m.promotion = none)
    (h2 : b.occ m.dest = some (dp, dc))
    (h3 : dc ≠ turn)
    (h4 : b.occ m.source = some (sp, sc)) :
    bitMoveNew m turn b = .ok ⟨.Capture
      ⟨get_index dp false (orient m.dest turn), .Remove⟩
      ⟨get_index sp true (orient m.dest turn), .Place⟩
      ⟨get_index sp true (orient m.source turn), .Remove⟩⟩ := by
  unfold bitMoveNew
  rw [if_neg (moveText_ne_OO m), if_neg (moveText_ne_OOO m)]
  simp [h1, color_on, piece_on, h2, h4, h3]

theorem claim_C6_capture_witness :
    (capMove.promotion = none) ∧
    (capBoard.occ capMove.dest = some (Piece.rook, Color.black)) ∧
    (Color.black ≠ Color.white) ∧
    (capBoard.occ capMove.source = some (Piece.rook, Color.white)) ∧
    bitMoveNew capMove Color.white capBoard = .ok ⟨.Capture
      ⟨get_index Piece.rook false (orient capMove.dest Color.white), .Remove⟩
      ⟨get_index Piece.rook true (orient capMove.dest Color.white), .Place⟩
      ⟨get_index Piece.rook true (orient capMove.source Color.white), .Remove⟩⟩ :=
  ⟨rfl, rfl, by decide, rfl,
    claim_C6_capture capMove Color.white capBoard Piece.rook Piece.rook
      Color.black Color.white rfl rfl (by decide) rfl⟩

/-- C3 amended: for every move WITHOUT a promotion piece whose
destination holds a piece of the mover's own color, classification fails
with the illegal-move error (so no deltas exist) and forward returns the
state unchanged together with that error. -/
theorem claim_C3_amended_thm (oracle : EncVec → Int) (s : NNUEState) (m : ChessMove)
    (h1 : m.promotion = none)
    (h2 : color_on s.board m.dest = some s.board.turn) :
    bitMoveNew m s.board.turn s.board = .error .illegalMove ∧
    forward oracle s m = (s, .error .illegalMove) := by
  have hb : bitMoveNew m s.board.turn s.board = .error .illegalMove := by
    unfold bitMoveNew
    rw [if_neg (moveText_ne_OO m), if_neg (moveText_ne_OOO m)]
    simp [h1, h2]
  refine ⟨hb, ?_⟩
  unfold forward
  rw [hb]

/-- C3 counterexample: a promotion move onto a square held by the
mover's own piece (white pawn a7 takes the white knight square b8,
promoting to a queen) satisfies the claim's premise — the destination is
occupied by the mover's color — yet classification succeeds as Promote
instead of failing with an illegal-move error, because the promotion
check precedes the same-color check. -/
theorem claim_C3_counterexample :
    (color_on promCexBoard promCexMove.dest = some Color.white) ∧
    (promCexBoard.turn = Color.white) ∧
    bitMoveNew promCexMove Color.white promCexBoard =
      .ok ⟨.Promote ⟨313, .Place⟩ ⟨48, .Remove⟩⟩ :=
  ⟨rfl, rfl, rfl⟩

theorem claim_C3_amended_witness :
    (ownBlockMove.promotion = none) ∧
    (color_on ownBlockState.board ownBlockMove.dest = some ownBlockState.board.turn) ∧
    (bitMoveNew ownBlockMove ownBlockState.board.turn ownBlockState.board =
       .error .illegalMove ∧
     forward oracle0 ownBlockState ownBlockMove = (ownBlockState, .error .illegalMove)) :=
  ⟨rfl, rfl, claim_C3_amended_thm oracle0 ownBlockState ownBlockMove rfl rfl⟩

/-- C5: the castle branch of classification is unreachable — the
coordinate rendering of a ChessMove is never the castle notation O-O or
O-O-O — so the structural kingside castling move e1g1 on a
castling-ready board is classified as NonCapture with only the two king
deltas (326 Place, 324 Remove), not as Castle with four deltas. -/
theorem claim_C5_castle_unreachable :
    (∀ m : ChessMove, moveText m ≠ ['O', '-', 'O'] ∧
      moveText m ≠ ['O', '-', 'O', '-', 'O']) ∧
    moveText castleMove = ['e', '1', 'g', '1'] ∧
    bitMoveNew castleMove Color.white castleBoard =
      .ok ⟨.NonCapture ⟨326, .Place⟩ ⟨324, .Remove⟩⟩ :=
  ⟨fun m => ⟨moveText_ne_OO m, moveText_ne_OOO m⟩, rfl, rfl⟩

set_option maxHeartbeats 4000000

theorem flip_spec (p : Piece) (ob : Bool) (sq : Fin 64) (i : Fin 768) :
    i.val = get_index p ob (63 - sq.val) ↔
      (flipIdx i).val = get_index p (!ob) sq.val := by
  have ho := pieceOrd_le p
  have hs := sq.isLt
  have hi := i.isLt
  cases ob <;>
    simp only [get_index, piece_index, flipIdx, flipOwn, Bool.not_true,
      Bool.not_false, Bool.false_eq_true, Bool.true_eq_false, if_true,
      if_false, ite_true, ite_false] <;>
    split <;> omega

/-- C1 amended: resynchronization encodes a position relative to its own
side to move, so after a move that hands the turn to Black it does not
reproduce the incrementally updated vector; instead, the Black-side
resynchronization of any occupancy equals the White-side encoding read
through the perspective transform on feature indices (ownership-offset
swap and square point-reflection), while the incremental vector keeps
the pre-move White perspective — verified concretely for 1. e2e4, where
the incremental vector equals the White-perspective encoding of the
post-move position. -/
theorem claim_C1_amended_thm :
    (∀ (occ : Fin 64 → Option (Piece × Color)) (i : Fin 768),
      encodeFrom occ Color.black i = encodeFrom occ Color.white (flipIdx i)) ∧
    (∀ i : Fin 768,
      encodeFrom boardAfterE4.occ Color.white i =
        make_move (encodeBoard initialBoard) bmE2E4 i) := by
  constructor
  · intro occ i
    rw [encodeFrom_apply, encodeFrom_apply]
    refine if_congr ?_ rfl rfl
    refine exists_congr fun sq => ?_
    unfold hitB
    cases ho : occ sq with
    | none => simp
    | some pc =>
      obtain ⟨p, c⟩ := pc
      simp only [decide_eq_true_eq]
      cases c with
      | white => simpa [orient] using flip_spec p false sq i
      | black => simpa [orient] using flip_spec p true sq i
  · decide

/-- C1 counterexample: for the position reached from the initial
position by the single move e2e4 (whose classification is bmE2E4, as the
first conjunct shows), the vector produced by full resynchronization
(set_board_hard's encodeBoard) differs from the vector obtained by
applying that classification to the initial position's resynchronization
output — they disagree at feature index 12. -/
theorem claim_C1_counterexample :
    bitMoveNew mvE2E4 Color.white initialBoard = .ok bmE2E4 ∧
    initialBoard.turn = Color.white ∧
    make_move (encodeBoard initialBoard) bmE2E4 ≠ encodeBoard boardAfterE4 := by
  refine ⟨rfl, rfl, fun h => ?_⟩
  have h12 := congrFun h ⟨12, by omega⟩
  revert h12
  decide
